import Mathlib

/-!
Shallow embedding of the `type-assurance` runtime schema matcher
(`index.ts`): the recursive conformance algorithm `diff`/`is`, the
combinators `union`, `optional`, `typeGuard`, `unknown`, and the
assertion wrapper `assert`.

JavaScript values are modelled by the inductive `JSValue` (numbers as
integers, symbols by an identity tag, class instances by a prototype
chain of class identities).  Function values used as schemas are
modelled by the structure `Fn`, carrying the observable pieces the
matcher consults: the function name, whether `fn.prototype?.constructor
=== fn`, a class identity for `instanceof`, the predicate behaviour,
and the `optional` tag attached by the `optional` combinator.
-/

namespace TypeAssurance

/-- Primitive JavaScript values usable as literal schemas
(string / number / boolean / null / undefined / symbol). -/
inductive Prim where
  | str (s : String)
  | num (n : Int)
  | bool (b : Bool)
  | null
  | undefined
  | sym (id : Nat)
deriving DecidableEq

/-- An arbitrary JavaScript value being checked against a schema.
Class instances carry the list of class identities of their prototype
chain; function values carry theirs likewise. -/
inductive JSValue where
  | str (s : String)
  | num (n : Int)
  | bool (b : Bool)
  | null
  | undefined
  | sym (id : Nat)
  | arr (elems : List JSValue)
  | obj (props : List (String × JSValue))
  | inst (chain : List Nat) (props : List (String × JSValue))
  | funcv (chain : List Nat)

/-- A JavaScript function used as a schema: its `name`, whether
`fn.prototype?.constructor === fn`, its class identity (for
`instanceof`), its behaviour when called as a predicate, and the
`optional` property the `optional` combinator attaches. -/
structure Fn where
  name : String
  protoCtorIsSelf : Bool
  classId : Nat
  pred : JSValue → Bool
  optionalTag : Bool

/-- Runtime type definition (`Schema` in index.ts): primitive markers
`String`/`Number`/`Boolean`, nested arrays, plain objects, function
schemas (constructors or predicates) and primitive literals. -/
inductive Schema where
  | stringMarker
  | numberMarker
  | booleanMarker
  | arr (elems : List Schema)
  | obj (props : List (String × Schema))
  | fn (f : Fn)
  | lit (l : Prim)

/-- `typeof value === "string"`. -/
def isStr : JSValue → Bool
  | .str _ => true
  | _ => false

/-- `typeof value === "number"`. -/
def isNum : JSValue → Bool
  | .num _ => true
  | _ => false

/-- `typeof value === "boolean"`. -/
def isBool : JSValue → Bool
  | .bool _ => true
  | _ => false

/-- `value && typeof value === "object"`: the guard of the object
branch of `diff`.  Arrays and class instances pass it; `null`,
primitives, symbols and functions do not. -/
def isObjectLike : JSValue → Bool
  | .arr _ => true
  | .obj _ => true
  | .inst _ _ => true
  | _ => false

/-- JavaScript strict equality `value === schema` between an arbitrary
value and a primitive literal. -/
def strictEq : JSValue → Prim → Bool
  | .str s, .str s' => s == s'
  | .num n, .num n' => n == n'
  | .bool b, .bool b' => b == b'
  | .null, .null => true
  | .undefined, .undefined => true
  | .sym i, .sym j => i == j
  | _, _ => false

/-- `isConstructor` from index.ts: `typeof fn === "function"` (holds by
typing here), `fn.prototype?.constructor === fn`, and
`fn.name.charAt(0) === fn.name.charAt(0).toUpperCase()`.  Note that the
last conjunct holds for the empty name (`charAt` yields the empty
string) and for any first character unchanged by uppercasing. -/
def isConstructor (f : Fn) : Bool :=
  f.protoCtorIsSelf &&
    (match f.name.data with
     | [] => true
     | c :: _ => c.toUpper == c)

/-- `value instanceof fn`: prototype-chain membership of the function's
class identity. -/
def instanceOf (v : JSValue) (f : Fn) : Bool :=
  match v with
  | .inst chain _ => chain.contains f.classId
  | .funcv chain => chain.contains f.classId
  | _ => false

/-- Property access `value[k]` as used by the object branch of `diff`:
own-property lookup on objects and instances, index/`length` access on
arrays, `undefined` otherwise. -/
def getProp (v : JSValue) (k : String) : JSValue :=
  match v with
  | .obj props => (props.lookup k).getD .undefined
  | .inst _ props => (props.lookup k).getD .undefined
  | .arr elems =>
      match k.toNat? with
      | some i => if toString i = k then elems.getD i .undefined else .undefined
      | none => if k = "length" then .num elems.length else .undefined
  | _ => .undefined

/-- Path extension for array indices: `` `${path}[${i}]` ``. -/
def idxPath (path : String) (i : Nat) : String :=
  path ++ "[" ++ toString i ++ "]"

/-- Path extension for object keys: `` `${path}.${k}` ``. -/
def keyPath (path : String) (k : String) : String :=
  path ++ "." ++ k

mutual

/-- `diff` from index.ts: compares a value to a schema and returns all
property paths where the data does not match.  The branch order is the
source's: primitive markers, arrays (empty / homogeneous / tuple),
objects, functions (constructor vs. predicate), literal fallthrough. -/
def diff (v : JSValue) (s : Schema) (path : String) : List String :=
  match s with
  | .stringMarker => if isStr v then [] else [path]
  | .numberMarker => if isNum v then [] else [path]
  | .booleanMarker => if isBool v then [] else [path]
  | .arr elems =>
      match v with
      | .arr vs =>
          match elems with
          | [] => []
          | [s0] => eachAux vs s0 0 path
          | s0 :: s1 :: rest =>
              let mismatch := tupleAux vs (s0 :: s1 :: rest) 0 path
              if mismatch.length = 0 then
                (if vs.length = (s0 :: s1 :: rest).length then [] else [path])
              else mismatch
      | _ => [path]
  | .obj props =>
      if isObjectLike v then objAux v props path else [path]
  | .fn f =>
      if isConstructor f then
        (if instanceOf v f then [] else [path])
      else
        (if f.pred v then [] else [path])
  | .lit l => if strictEq v l then [] else [path]
termination_by (sizeOf s, 0)

/-- The homogeneous-array pass of `diff`:
`value.flatMap((v, i) => diff(v, schema[0], path[i]))`. -/
def eachAux (vs : List JSValue) (s0 : Schema) (i : Nat) (path : String) :
    List String :=
  match vs with
  | [] => []
  | v :: rest => diff v s0 (idxPath path i) ++ eachAux rest s0 (i + 1) path
termination_by (sizeOf s0 + 1, vs.length)

/-- The tuple pass of `diff`:
`value.flatMap((v, i) => diff(v, schema[i], path[i]))`.  An index past
the end of the schema reads `schema[i] === undefined`, for which `diff`
is the strict-equality check against `undefined` (inlined here). -/
def tupleAux (vs : List JSValue) (ss : List Schema) (i : Nat)
    (path : String) : List String :=
  match vs with
  | [] => []
  | v :: rest =>
      (match h : ss[i]? with
       | some si => diff v si (idxPath path i)
       | none => if strictEq v Prim.undefined then [] else [idxPath path i])
      ++ tupleAux rest ss (i + 1) path
termination_by (sizeOf ss, vs.length)
decreasing_by
· simp_wf
  obtain ⟨hi, heq⟩ := List.getElem?_eq_some_iff.mp h
  have hmem : si ∈ ss := heq ▸ List.getElem_mem hi
  exact Prod.Lex.left _ _ (List.sizeOf_lt_of_mem hmem)
· simp_wf
  exact Prod.Lex.right _ (by omega)

/-- The object pass of `diff`:
`Object.keys(schema).flatMap(k => diff(value[k], schema[k], path.k))`. -/
def objAux (v : JSValue) (props : List (String × Schema)) (path : String) :
    List String :=
  match props with
  | [] => []
  | (k, sk) :: rest =>
      diff (getProp v k) sk (keyPath path k) ++ objAux v rest path
termination_by (sizeOf props, 0)

end

/-- The tuple pass of `diff`, written as the source reads: element `i`
of the value is compared by `diff` against `schema[i]`, which is the
literal `undefined` when `i` is past the end of the schema. -/
def tupleChecks (vs : List JSValue) (ss : List Schema) (i : Nat)
    (p : String) : List String :=
  match vs with
  | [] => []
  | v :: rest =>
      diff v (ss.getD i (Schema.lit Prim.undefined)) (idxPath p i)
        ++ tupleChecks rest ss (i + 1) p

/-- `is` from index.ts: `diff(value, schema).length === 0` with the
default root path `"value"`. -/
def is (v : JSValue) (s : Schema) : Bool :=
  (diff v s "value").length == 0

/-- `typeGuard` from index.ts: an anonymous arrow function (no
prototype) closing over the schema. -/
def typeGuard (s : Schema) : Fn :=
  ⟨"", false, 0, fun v => is v s, false⟩

/-- `union` from index.ts: an anonymous arrow function testing
`schemas.some(schema => is(v, schema))`. -/
def union (schemas : List Schema) : Fn :=
  ⟨"", false, 0, fun v => schemas.any (fun s => is v s), false⟩

/-- `optional` from index.ts: `union(schema, undefined)` with the
`optional` property set on the returned guard. -/
def optional (s : Schema) : Fn :=
  ⟨"", false, 0, (union [s, Schema.lit Prim.undefined]).pred, true⟩

/-- Helper used only in statements: the same function value with its
`optional` property overwritten. -/
def setTag (f : Fn) (b : Bool) : Fn :=
  ⟨f.name, f.protoCtorIsSelf, f.classId, f.pred, b⟩

/-- `unknown` from index.ts: a named function declaration (so it has a
prototype whose constructor is itself) that always returns `true`. -/
def unknown : Fn :=
  ⟨"unknown", true, 0, fun _ => true, false⟩

/-- `assert` from index.ts: throws a `TypeError` whose message embeds
the first mismatch path when `diff` is non-empty, modelled as
`Except`. -/
def assert (v : JSValue) (s : Schema) : Except String Unit :=
  match diff v s "value" with
  | [] => Except.ok ()
  | m :: _ => Except.error (m ++ " does not match the schema.")

/-- One level of the homogeneous-array pass, parameterised by the
recursive comparison to use on elements (`none` signals that the
recursion-depth budget ran out). -/
def eachAuxGen (d : JSValue → String → Option (List String)) :
    List JSValue → Nat → String → Option (List String)
  | [], _, _ => some []
  | v :: rest, i, path => do
      let a ← d v (idxPath path i)
      let b ← eachAuxGen d rest (i + 1) path
      pure (a ++ b)

/-- One level of the tuple pass, parameterised by the recursive
comparison to use on elements. -/
def tupleAuxGen (d : JSValue → Schema → String → Option (List String))
    (ss : List Schema) :
    List JSValue → Nat → String → Option (List String)
  | [], _, _ => some []
  | v :: rest, i, path => do
      let a ←
        (match ss[i]? with
         | some si => d v si (idxPath path i)
         | none =>
             pure (if strictEq v Prim.undefined then [] else [idxPath path i]))
      let b ← tupleAuxGen d ss rest (i + 1) path
      pure (a ++ b)

/-- One level of the object pass, parameterised by the recursive
comparison to use on property values. -/
def objAuxGen (d : JSValue → Schema → String → Option (List String))
    (v : JSValue) :
    List (String × Schema) → String → Option (List String)
  | [], _ => some []
  | (k, sk) :: rest, path => do
      let a ← d (getProp v k) sk (keyPath path k)
      let b ← objAuxGen d v rest path
      pure (a ++ b)

/-- `diff` instrumented with an explicit recursion-depth budget: fuel
is consumed exactly when the traversal descends into a subschema, and
never while iterating over the value, so the budget needed is a
function of the schema alone. -/
def diffFuel : Nat → JSValue → Schema → String → Option (List String)
  | 0, _, _, _ => none
  | n + 1, v, s, path =>
      match s with
      | .stringMarker => some (if isStr v then [] else [path])
      | .numberMarker => some (if isNum v then [] else [path])
      | .booleanMarker => some (if isBool v then [] else [path])
      | .arr elems =>
          match v with
          | .arr vs =>
              match elems with
              | [] => some []
              | [s0] => eachAuxGen (fun v' p' => diffFuel n v' s0 p') vs 0 path
              | s0 :: s1 :: rest =>
                  (tupleAuxGen (fun v' s' p' => diffFuel n v' s' p')
                      (s0 :: s1 :: rest) vs 0 path).map
                    (fun mismatch =>
                      if mismatch.length = 0 then
                        (if vs.length = (s0 :: s1 :: rest).length then []
                         else [path])
                      else mismatch)
          | _ => some [path]
      | .obj props =>
          if isObjectLike v then
            objAuxGen (fun v' s' p' => diffFuel n v' s' p') v props path
          else some [path]
      | .fn f =>
          some (if isConstructor f then (if instanceOf v f then [] else [path])
                else (if f.pred v then [] else [path]))
      | .lit l => some (if strictEq v l then [] else [path])

/-- Modelled from the spec's claim wording, for comparison with the
source's `isConstructor`: a function is a constructor iff it is
callable, has a prototype whose own constructor is itself, and the
first character of its name is an uppercase letter. -/
def claimIsConstructor (f : Fn) : Bool :=
  f.protoCtorIsSelf &&
    (match f.name.data with
     | [] => false
     | c :: _ => c.isUpper)

/-- A function declaration named `_check` (so its prototype's
constructor is itself) whose body accepts every value. -/
def cexFn : Fn :=
  ⟨"_check", true, 5, fun _ => true, false⟩

/-- `diff` on a literal schema is the strict-equality leaf check. -/
lemma diff_lit (v : JSValue) (l : Prim) (p : String) :
    diff v (Schema.lit l) p = if strictEq v l then [] else [p] := by
  simp [diff]

/-- The inlined out-of-range check in `tupleAux` agrees with `diff`
against the literal `undefined`, so the tuple pass is `tupleChecks`. -/
lemma tupleAux_eq (vs : List JSValue) (ss : List Schema) (i : Nat)
    (p : String) : tupleAux vs ss i p = tupleChecks vs ss i p := by
  induction vs generalizing i with
  | nil => simp [tupleAux, tupleChecks]
  | cons v rest ih =>
      simp only [tupleAux, tupleChecks, ih]
      congr 1
      cases h : ss[i]? with
      | none => simp [h, diff_lit]
      | some si => simp [h]

/-- Unfolding of `diff` at a function schema: constructor schemas get
the `instanceof` leaf check, all other functions are invoked as
predicates. -/
lemma diff_fn (v : JSValue) (f : Fn) (p : String) :
    diff v (Schema.fn f) p =
      (if isConstructor f then (if instanceOf v f then [] else [p])
       else (if f.pred v then [] else [p])) := by
  simp [diff]

/-- `is` against a literal schema is the strict-equality check. -/
lemma is_lit (v : JSValue) (l : Prim) :
    is v (Schema.lit l) = strictEq v l := by
  by_cases h : strictEq v l = true <;> simp [is, diff_lit, h]

/-- Strict equality with the literal `undefined` characterised. -/
lemma strictEq_undefined (v : JSValue) :
    strictEq v Prim.undefined = true ↔ v = JSValue.undefined := by
  cases v <;> simp [strictEq]

/-- Unfolding of `diff` at an object schema on an object-like value. -/
lemma diff_obj {v : JSValue} (props : List (String × Schema)) (p : String)
    (h : isObjectLike v = true) :
    diff v (Schema.obj props) p = objAux v props p := by
  simp [diff, h]

/-- Unfolding of `diff` at a tuple schema (two or more element
schemas) on an array value: the positional pass runs first and is
returned whenever non-empty; the length comparison happens only
afterwards. -/
lemma diff_tuple (s0 s1 : Schema) (rest : List Schema) (vs : List JSValue)
    (p : String) :
    diff (JSValue.arr vs) (Schema.arr (s0 :: s1 :: rest)) p =
      (if tupleChecks vs (s0 :: s1 :: rest) 0 p = [] then
        (if vs.length = (s0 :: s1 :: rest).length then [] else [p])
       else tupleChecks vs (s0 :: s1 :: rest) 0 p) := by
  by_cases hc : tupleChecks vs (s0 :: s1 :: rest) 0 p = [] <;>
    simp [diff, tupleAux_eq, hc, List.length_eq_zero]

/-- The positional pass splits over a concatenation of the value,
with the index offset advancing accordingly. -/
lemma tupleChecks_append (l1 l2 : List JSValue) (ss : List Schema)
    (i : Nat) (p : String) :
    tupleChecks (l1 ++ l2) ss i p =
      tupleChecks l1 ss i p ++ tupleChecks l2 ss (i + l1.length) p := by
  induction l1 generalizing i with
  | nil => simp [tupleChecks]
  | cons v rest ih =>
      have hx : i + 1 + rest.length = i + (rest.length + 1) := by omega
      simp only [List.cons_append, tupleChecks, List.append_eq, ih,
        List.length_cons, List.append_assoc, hx]

/-- Past the end of the schema the positional pass compares each
element against the literal `undefined`: it is empty exactly when all
those elements are `undefined`. -/
lemma tupleChecks_out (vs : List JSValue) (ss : List Schema) (p : String) :
    ∀ i, ss.length ≤ i →
    (tupleChecks vs ss i p = [] ↔ ∀ v ∈ vs, v = JSValue.undefined) := by
  induction vs with
  | nil => intro i _; simp [tupleChecks]
  | cons v rest ih =>
      intro i hi
      have hnone : ss[i]? = none := List.getElem?_eq_none hi
      have hD : ss.getD i (Schema.lit Prim.undefined) = Schema.lit Prim.undefined := by
        simp [List.getD_eq_getElem?_getD, hnone]
      simp only [tupleChecks, hD, diff_lit, List.append_eq_nil, List.mem_cons]
      rw [ih (i + 1) (by omega)]
      by_cases hv : strictEq v Prim.undefined = true
      · have := (strictEq_undefined v).mp hv
        simp [hv, this, strictEq]
      · have : ¬v = JSValue.undefined := fun he => hv (by simp [he, strictEq])
        simp [hv, this]

/-- Every schema has positive size. -/
lemma schema_sizeOf_pos (s : Schema) : 0 < sizeOf s := by
  cases s <;> simp_arith

/-- If the element comparison is exact, so is the generic
homogeneous-array pass. -/
lemma eachAuxGen_eq {d : JSValue → String → Option (List String)}
    {s0 : Schema} (h : ∀ v p, d v p = some (diff v s0 p)) :
    ∀ (vs : List JSValue) (i : Nat) (path : String),
      eachAuxGen d vs i path = some (eachAux vs s0 i path) := by
  intro vs
  induction vs with
  | nil => intro i path; simp [eachAuxGen, eachAux]
  | cons v rest ih => intro i path; simp [eachAuxGen, eachAux, h, ih]

/-- If the element comparison is exact on every member of the schema,
so is the generic tuple pass. -/
lemma tupleAuxGen_eq {d : JSValue → Schema → String → Option (List String)}
    {ss : List Schema}
    (h : ∀ s' ∈ ss, ∀ v p, d v s' p = some (diff v s' p)) :
    ∀ (vs : List JSValue) (i : Nat) (path : String),
      tupleAuxGen d ss vs i path = some (tupleAux vs ss i path) := by
  intro vs
  induction vs with
  | nil => intro i path; simp [tupleAuxGen, tupleAux]
  | cons v rest ih =>
      intro i path
      rw [tupleAux_eq]
      cases hh : ss[i]? with
      | none =>
          have hD : ss.getD i (Schema.lit Prim.undefined) = Schema.lit Prim.undefined := by
            simp [List.getD_eq_getElem?_getD, hh]
          simp [tupleAuxGen, tupleChecks, hh, hD, diff_lit, ih, tupleAux_eq]
      | some si =>
          have hmem : si ∈ ss := by
            obtain ⟨hi, heq⟩ := List.getElem?_eq_some_iff.mp hh
            exact heq ▸ List.getElem_mem hi
          have hD : ss.getD i (Schema.lit Prim.undefined) = si := by
            simp [List.getD_eq_getElem?_getD, hh]
          simp [tupleAuxGen, tupleChecks, hh, hD, h si hmem, ih, tupleAux_eq]

/-- If the property comparison is exact on every schema property, so
is the generic object pass. -/
lemma objAuxGen_eq {d : JSValue → Schema → String → Option (List String)}
    {props : List (String × Schema)}
    (h : ∀ kv ∈ props, ∀ v' p', d v' kv.2 p' = some (diff v' kv.2 p')) :
    ∀ (v : JSValue) (path : String),
      objAuxGen d v props path = some (objAux v props path) := by
  induction props with
  | nil => intro v path; simp [objAuxGen, objAux]
  | cons kv rest ih =>
      intro v path
      obtain ⟨k, sk⟩ := kv
      have hh := h (k, sk) (by simp)
      simp only [objAuxGen, objAux, hh, ih (fun kv hkv => h kv (by simp [hkv]))]
      rfl

/-- A recursion-depth budget of the schema's size is always enough:
the instrumented matcher returns exactly `diff`'s answer, whatever the
value is.  The budget is a function of the schema alone. -/
lemma diffFuel_eq_of_le :
    ∀ (n : Nat) (s : Schema), sizeOf s ≤ n →
    ∀ (v : JSValue) (p : String), diffFuel n v s p = some (diff v s p) := by
  intro n
  induction n with
  | zero => intro s hs; exact absurd hs (by have := schema_sizeOf_pos s; omega)
  | succ n IH =>
      intro s hs v p
      cases s with
      | stringMarker => simp [diffFuel, diff]
      | numberMarker => simp [diffFuel, diff]
      | booleanMarker => simp [diffFuel, diff]
      | fn f => simp [diffFuel, diff]
      | lit l => simp [diffFuel, diff]
      | obj props =>
          by_cases ho : isObjectLike v = true
          · have harg : ∀ kv ∈ props, ∀ (v' : JSValue) (p' : String),
                diffFuel n v' kv.2 p' = some (diff v' kv.2 p') := by
              intro kv hkv v' p'
              have h1 : sizeOf kv < sizeOf props := List.sizeOf_lt_of_mem hkv
              have h2 : sizeOf kv.2 ≤ sizeOf kv := by
                obtain ⟨k, sk⟩ := kv; simp_arith
              have h3 : sizeOf props < sizeOf (Schema.obj props) := by simp_arith
              exact IH kv.2 (by omega) v' p'
            simp [diffFuel, diff, ho, objAuxGen_eq harg]
          · simp [diffFuel, diff, ho]
      | arr elems =>
          cases v with
          | arr vs =>
              match elems with
              | [] => simp [diffFuel, diff]
              | [s0] =>
                  have h0 : sizeOf s0 ≤ n := by
                    have : sizeOf (Schema.arr [s0]) = 3 + sizeOf s0 := by
                      simp_arith
                    omega
                  have harg : ∀ (v' : JSValue) (p' : String),
                      diffFuel n v' s0 p' = some (diff v' s0 p') :=
                    fun v' p' => IH s0 h0 v' p'
                  simp [diffFuel, diff, eachAuxGen_eq harg]
              | s0 :: s1 :: rest =>
                  have harg : ∀ s' ∈ s0 :: s1 :: rest,
                      ∀ (v' : JSValue) (p' : String),
                      diffFuel n v' s' p' = some (diff v' s' p') := by
                    intro s' hs' v' p'
                    have h1 : sizeOf s' < sizeOf (s0 :: s1 :: rest) :=
                      List.sizeOf_lt_of_mem hs'
                    have h2 : sizeOf (s0 :: s1 :: rest) <
                        sizeOf (Schema.arr (s0 :: s1 :: rest)) := by simp_arith
                    exact IH s' (by omega) v' p'
                  simp [diffFuel, diff, tupleAuxGen_eq harg]
          | str s' => simp [diffFuel, diff]
          | num n' => simp [diffFuel, diff]
          | bool b => simp [diffFuel, diff]
          | null => simp [diffFuel, diff]
          | undefined => simp [diffFuel, diff]
          | sym id => simp [diffFuel, diff]
          | obj props => simp [diffFuel, diff]
          | inst chain props => simp [diffFuel, diff]
          | funcv chain => simp [diffFuel, diff]

/-- Every path the generic homogeneous pass emits extends the path it
was handed. -/
lemma eachAuxGen_paths {d : JSValue → String → Option (List String)}
    (H : ∀ v p out, d v p = some out → ∀ q ∈ out, ∃ t, q = p ++ t) :
    ∀ (vs : List JSValue) (i : Nat) (path : String) (out : List String),
      eachAuxGen d vs i path = some out → ∀ q ∈ out, ∃ t, q = path ++ t := by
  intro vs
  induction vs with
  | nil =>
      intro i path out heq q hq
      cases heq
      simp at hq
  | cons v rest ih =>
      intro i path out heq q hq
      simp only [eachAuxGen, Option.bind_eq_bind, Option.bind_eq_some] at heq
      obtain ⟨a, ha, b, hb, hab⟩ := heq
      have hab' : a ++ b = out := by simpa using hab
      subst hab'
      rcases List.mem_append.mp hq with hqa | hqb
      · obtain ⟨t, ht⟩ := H v (idxPath path i) a ha q hqa
        exact ⟨"[" ++ toString i ++ "]" ++ t, by
          simp [ht, idxPath, String.append_assoc]⟩
      · exact ih (i + 1) path b hb q hqb

/-- Every path the generic tuple pass emits extends the path it was
handed. -/
lemma tupleAuxGen_paths {d : JSValue → Schema → String → Option (List String)}
    {ss : List Schema}
    (H : ∀ v s' p out, d v s' p = some out → ∀ q ∈ out, ∃ t, q = p ++ t) :
    ∀ (vs : List JSValue) (i : Nat) (path : String) (out : List String),
      tupleAuxGen d ss vs i path = some out →
      ∀ q ∈ out, ∃ t, q = path ++ t := by
  intro vs
  induction vs with
  | nil =>
      intro i path out heq q hq
      cases heq
      simp at hq
  | cons v rest ih =>
      intro i path out heq q hq
      simp only [tupleAuxGen, Option.bind_eq_bind, Option.bind_eq_some] at heq
      obtain ⟨a, ha, b, hb, hab⟩ := heq
      have hab' : a ++ b = out := by simpa using hab
      subst hab'
      rcases List.mem_append.mp hq with hqa | hqb
      · cases hh : ss[i]? with
        | some si =>
            rw [hh] at ha
            obtain ⟨t, ht⟩ := H v si (idxPath path i) a ha q hqa
            exact ⟨"[" ++ toString i ++ "]" ++ t, by
              simp [ht, idxPath, String.append_assoc]⟩
        | none =>
            rw [hh] at ha
            simp only [pure] at ha
            by_cases hu : strictEq v Prim.undefined = true
            · simp [hu] at ha; subst ha; simp at hqa
            · simp [hu] at ha
              subst ha
              simp at hqa
              exact ⟨"[" ++ toString i ++ "]", by
                simp [hqa, idxPath, String.append_assoc]⟩
      · exact ih (i + 1) path b hb q hqb

/-- Every path the generic object pass emits extends the path it was
handed. -/
lemma objAuxGen_paths {d : JSValue → Schema → String → Option (List String)}
    (H : ∀ v s' p out, d v s' p = some out → ∀ q ∈ out, ∃ t, q = p ++ t) :
    ∀ (props : List (String × Schema)) (v : JSValue) (path : String)
      (out : List String),
      objAuxGen d v props path = some out → ∀ q ∈ out, ∃ t, q = path ++ t := by
  intro props
  induction props with
  | nil =>
      intro v path out heq q hq
      cases heq
      simp at hq
  | cons kv rest ih =>
      intro v path out heq q hq
      obtain ⟨k, sk⟩ := kv
      simp only [objAuxGen, Option.bind_eq_bind, Option.bind_eq_some] at heq
      obtain ⟨a, ha, b, hb, hab⟩ := heq
      have hab' : a ++ b = out := by simpa using hab
      subst hab'
      rcases List.mem_append.mp hq with hqa | hqb
      · obtain ⟨t, ht⟩ := H (getProp v k) sk (keyPath path k) a ha q hqa
        exact ⟨"." ++ k ++ t, by simp [ht, keyPath, String.append_assoc]⟩
      · exact ih v path b hb q hqb

/-- Every path the instrumented matcher emits extends the root path it
was handed. -/
lemma diffFuel_paths :
    ∀ (n : Nat) (v : JSValue) (s : Schema) (path : String)
      (out : List String),
      diffFuel n v s path = some out → ∀ q ∈ out, ∃ t, q = path ++ t := by
  intro n
  induction n with
  | zero => intro v s path out heq; simp [diffFuel] at heq
  | succ n IH =>
      intro v s path out heq q hq
      cases s with
      | stringMarker =>
          simp only [diffFuel, Option.some.injEq] at heq
          subst heq
          rcases (by split at hq <;> simp_all : q = path) with rfl
          exact ⟨"", by simp⟩
      | numberMarker =>
          simp only [diffFuel, Option.some.injEq] at heq
          subst heq
          rcases (by split at hq <;> simp_all : q = path) with rfl
          exact ⟨"", by simp⟩
      | booleanMarker =>
          simp only [diffFuel, Option.some.injEq] at heq
          subst heq
          rcases (by split at hq <;> simp_all : q = path) with rfl
          exact ⟨"", by simp⟩
      | fn f =>
          simp only [diffFuel, Option.some.injEq] at heq
          subst heq
          rcases (by split at hq <;> simp_all : q = path) with rfl
          exact ⟨"", by simp⟩
      | lit l =>
          simp only [diffFuel, Option.some.injEq] at heq
          subst heq
          rcases (by split at hq <;> simp_all : q = path) with rfl
          exact ⟨"", by simp⟩
      | obj props =>
          by_cases ho : isObjectLike v = true
          · rw [diffFuel] at heq
            simp only [ho, if_pos] at heq
            exact objAuxGen_paths (fun v' s' p' out' => IH v' s' p' out')
              props v path out heq q hq
          · rw [diffFuel] at heq
            simp only [ho] at heq
            simp only [Bool.false_eq_true, if_false, Option.some.injEq] at heq
            subst heq
            simp at hq
            exact ⟨"", by simp [hq]⟩
      | arr elems =>
          cases v with
          | arr vs =>
              match elems with
              | [] =>
                  simp only [diffFuel, Option.some.injEq] at heq
                  subst heq
                  simp at hq
              | [s0] =>
                  rw [diffFuel] at heq
                  exact eachAuxGen_paths
                    (fun v' p' out' => IH v' s0 p' out')
                    vs 0 path out heq q hq
              | s0 :: s1 :: rest =>
                  rw [diffFuel] at heq
                  simp only [Option.map_eq_some'] at heq
                  obtain ⟨mismatch, hm, hout⟩ := heq
                  subst hout
                  by_cases hz : mismatch.length = 0
                  · simp only [hz, if_pos] at hq
                    split at hq
                    · simp at hq
                    · simp at hq
                      exact ⟨"", by simp [hq]⟩
                  · simp only [hz, if_neg, if_false] at hq
                    exact tupleAuxGen_paths
                      (fun v' s' p' out' => IH v' s' p' out')
                      vs 0 path mismatch hm q hq
          | str s' =>
              simp only [diffFuel, Option.some.injEq] at heq
              subst heq
              simp at hq
              exact ⟨"", by simp [hq]⟩
          | num n' =>
              simp only [diffFuel, Option.some.injEq] at heq
              subst heq
              simp at hq
              exact ⟨"", by simp [hq]⟩
          | bool b =>
              simp only [diffFuel, Option.some.injEq] at heq
              subst heq
              simp at hq
              exact ⟨"", by simp [hq]⟩
          | null =>
              simp only [diffFuel, Option.some.injEq] at heq
              subst heq
              simp at hq
              exact ⟨"", by simp [hq]⟩
          | undefined =>
              simp only [diffFuel, Option.some.injEq] at heq
              subst heq
              simp at hq
              exact ⟨"", by simp [hq]⟩
          | sym id =>
              simp only [diffFuel, Option.some.injEq] at heq
              subst heq
              simp at hq
              exact ⟨"", by simp [hq]⟩
          | obj props =>
              simp only [diffFuel, Option.some.injEq] at heq
              subst heq
              simp at hq
              exact ⟨"", by simp [hq]⟩
          | inst chain props =>
              simp only [diffFuel, Option.some.injEq] at heq
              subst heq
              simp at hq
              exact ⟨"", by simp [hq]⟩
          | funcv chain =>
              simp only [diffFuel, Option.some.injEq] at heq
              subst heq
              simp at hq
              exact ⟨"", by simp [hq]⟩

/-- Every path `diff` emits extends the root path it was handed. -/
lemma diff_paths (v : JSValue) (s : Schema) (path : String) :
    ∀ q ∈ diff v s path, ∃ t, q = path ++ t := by
  intro q hq
  have h := diffFuel_eq_of_le (sizeOf s) s (le_refl _) v path
  exact diffFuel_paths (sizeOf s) v s path (diff v s path) h q hq

/-- Appending properties whose keys a lookup avoids does not change
that lookup. -/
lemma getProp_obj_append (vp ex : List (String × JSValue)) (k : String)
    (hk : k ∉ ex.map Prod.fst) :
    getProp (JSValue.obj (vp ++ ex)) k = getProp (JSValue.obj vp) k := by
  have hex : ex.lookup k = none := by
    rw [List.lookup_eq_none_iff]
    intro p hp
    have : p.1 ∈ ex.map Prod.fst := List.mem_map_of_mem Prod.fst hp
    simp only [bne_iff_ne, ne_eq]
    intro he
    exact hk (he ▸ this)
  simp [getProp, List.lookup_append, hex]

/-- The object pass only reads the properties named in the schema: two
object-like values agreeing on those properties get the same result. -/
lemma objAux_congr (props : List (String × Schema)) (v1 v2 : JSValue)
    (p : String)
    (h : ∀ k ∈ props.map Prod.fst, getProp v1 k = getProp v2 k) :
    objAux v1 props p = objAux v2 props p := by
  induction props with
  | nil => simp [objAux]
  | cons kv rest ih =>
      obtain ⟨k, sk⟩ := kv
      have hk : getProp v1 k = getProp v2 k := h k (by simp)
      simp only [objAux, hk, ih (fun k' hk' => h k' (by simp [hk']))]

/-- C1: for every value `v` and every schema `s`, `is v s` returns
`true` if and only if `diff v s` returns the empty sequence of paths. -/
theorem is_iff_diff_empty (v : JSValue) (s : Schema) :
    is v s = true ↔ diff v s "value" = [] := by
  simp [is]

/-- C2 (counterexample): a function whose name starts with `_` — not
an uppercase letter — but which satisfies the source's
`charAt(0) === charAt(0).toUpperCase()` test is treated as a
constructor: the matcher runs the `instanceof` leaf check (rejecting a
plain object) instead of invoking the function as a predicate (which
would have accepted every value). -/
theorem constructor_heuristic_cex :
    claimIsConstructor cexFn = false
    ∧ isConstructor cexFn = true
    ∧ cexFn.pred (JSValue.obj []) = true
    ∧ diff (JSValue.obj []) (Schema.fn cexFn) "value" = ["value"] := by
  refine ⟨by decide, by decide, rfl, ?_⟩
  simp [diff, cexFn, isConstructor, instanceOf]

/-- C2 (amended): the matcher treats a function schema as a
constructor (leaf check `value instanceof f`) exactly when the
function is callable, its prototype's own constructor is itself, and
the first character of its name is unchanged by uppercasing (which
also holds for the empty name and for non-letter first characters);
every other function schema is invoked as a predicate. -/
theorem fn_schema_dispatch (f : Fn) (v : JSValue) (p : String) :
    (isConstructor f =
      (f.protoCtorIsSelf &&
        (match f.name.data with
         | [] => true
         | c :: _ => c.toUpper == c)))
    ∧ diff v (Schema.fn f) p =
        (if isConstructor f then (if instanceOf v f then [] else [p])
         else (if f.pred v then [] else [p])) :=
  ⟨rfl, diff_fn v f p⟩

/-- C3: on a tuple-mode array schema (two or more element schemas) and
an array value, the positional pass runs first and its mismatches are
returned immediately when present; only when every positional check
passes is the length compared, a difference yielding the single
mismatch at the unmodified tuple-level path. -/
theorem tuple_content_before_length (ss : List Schema) (vs : List JSValue)
    (p : String) (hs : 1 < ss.length) :
    diff (JSValue.arr vs) (Schema.arr ss) p =
      (if tupleChecks vs ss 0 p = [] then
        (if vs.length = ss.length then [] else [p])
       else tupleChecks vs ss 0 p) := by
  match ss, hs with
  | s0 :: s1 :: rest, _ => exact diff_tuple s0 s1 rest vs p

/-- C3 witness: `["A"]` against the tuple schema `[String, Number]`
has a clean positional pass, so only the length mismatch at the
tuple-level path is reported. -/
theorem tuple_content_before_length_witness :
    1 < ([Schema.stringMarker, Schema.numberMarker] : List Schema).length
    ∧ diff (JSValue.arr [JSValue.str "A"])
        (Schema.arr [Schema.stringMarker, Schema.numberMarker]) "value" =
      (if tupleChecks [JSValue.str "A"]
            [Schema.stringMarker, Schema.numberMarker] 0 "value" = [] then
        (if ([JSValue.str "A"] : List JSValue).length =
            ([Schema.stringMarker, Schema.numberMarker] : List Schema).length
         then [] else ["value"])
       else tupleChecks [JSValue.str "A"]
            [Schema.stringMarker, Schema.numberMarker] 0 "value") :=
  ⟨by decide, tuple_content_before_length _ _ _ (by decide)⟩

/-- C4: `assert` succeeds exactly when `is` returns `true`, and
otherwise fails with a type-mismatch error whose message embeds the
first mismatch path of `diff`. -/
theorem assert_spec (v : JSValue) (s : Schema) :
    assert v s =
      (if is v s then Except.ok ()
       else Except.error
         ((diff v s "value").headD "" ++ " does not match the schema."))
    ∧ (assert v s = Except.ok () ↔ is v s = true) := by
  constructor
  · unfold assert
    cases h : diff v s "value" with
    | nil => simp [is, h]
    | cons m rest => simp [is, h]
  · unfold assert
    cases h : diff v s "value" with
    | nil => simp [is, h]
    | cons m rest => simp [is, h]

/-- C5: `optional s` accepts exactly what `union [s, undefined]`
accepts, namely the values satisfying `is · s` or strictly equal to
`undefined`; it carries the optionality tag, and the matcher's
treatment of the guard is unchanged by that tag. -/
theorem optional_spec (s : Schema) (v : JSValue) :
    (optional s).pred v = (union [s, Schema.lit Prim.undefined]).pred v
    ∧ (optional s).pred v = (is v s || strictEq v Prim.undefined)
    ∧ (optional s).optionalTag = true
    ∧ (union [s, Schema.lit Prim.undefined]).optionalTag = false
    ∧ ∀ (p : String) (b : Bool),
        diff v (Schema.fn (setTag (optional s) b)) p
          = diff v (Schema.fn (union [s, Schema.lit Prim.undefined])) p := by
  refine ⟨rfl, ?_, rfl, rfl, ?_⟩
  · show (union [s, Schema.lit Prim.undefined]).pred v = _
    simp [union, is_lit]
  · intro p b
    rw [diff_fn, diff_fn]
    rfl

/-- C6 (counterexample): a symbol schema is not an unconditional
mismatch — it matches that very symbol, because the uncovered-shape
fallthrough is the strict-equality leaf check. -/
theorem exotic_schema_cex :
    is (JSValue.sym 0) (Schema.lit (Prim.sym 0)) = true
    ∧ diff (JSValue.sym 0) (Schema.lit (Prim.sym 0)) "value" = [] := by
  constructor <;> simp [is, diff, strictEq]

/-- C6 (amended): the matcher is total and never throws — every
emitted mismatch is a path string extending the root path — and any
schema shape not covered by the earlier traversal rules falls through
to the strict-equality leaf check, mismatching unless the value is
strictly equal to the schema value itself. -/
theorem matcher_total_paths (v : JSValue) (s : Schema) (p : String) :
    (∀ q ∈ diff v s p, ∃ t, q = p ++ t)
    ∧ ∀ (l : Prim),
        diff v (Schema.lit l) p = if strictEq v l then [] else [p] :=
  ⟨diff_paths v s p, fun l => diff_lit v l p⟩

/-- C6 witness: the mismatch path reported for a string against the
`Number` marker extends the root path, and the literal fallthrough is
the equality test. -/
theorem matcher_total_paths_witness :
    ("value" ∈ diff (JSValue.str "a") Schema.numberMarker "value")
    ∧ (∃ t, "value" = "value" ++ t)
    ∧ diff (JSValue.str "a") (Schema.lit Prim.null) "value" =
        (if strictEq (JSValue.str "a") Prim.null then [] else ["value"]) := by
  have hm : "value" ∈ diff (JSValue.str "a") Schema.numberMarker "value" := by
    simp [diff, isNum]
  exact ⟨hm,
    (matcher_total_paths (JSValue.str "a") Schema.numberMarker "value").1
      "value" hm,
    (matcher_total_paths (JSValue.str "a") (Schema.lit Prim.null) "value").2
      Prim.null⟩

/-- C7: a recursion-depth budget given by the schema's size is enough
for every value: the instrumented matcher, whose fuel is consumed only
when descending into a subschema and never while iterating the value,
computes exactly `diff`.  The recursion depth is therefore bounded by
the finite schema alone, whatever the value. -/
theorem diff_fuel_bound (n : Nat) (s : Schema) (h : sizeOf s ≤ n)
    (v : JSValue) (p : String) :
    diffFuel n v s p = some (diff v s p) :=
  diffFuel_eq_of_le n s h v p

/-- C7 witness: a budget of 1000 suffices for a small object schema. -/
theorem diff_fuel_bound_witness :
    sizeOf (Schema.obj [("id", Schema.numberMarker)]) ≤ 1000
    ∧ diffFuel 1000 (JSValue.obj [("id", JSValue.num 23)])
        (Schema.obj [("id", Schema.numberMarker)]) "value"
      = some (diff (JSValue.obj [("id", JSValue.num 23)])
          (Schema.obj [("id", Schema.numberMarker)]) "value") :=
  ⟨by decide, diff_fuel_bound 1000 _ (by decide) _ _⟩

/-- C8: the object pass reads exactly the properties named in the
schema — two object-like values agreeing on those properties are
indistinguishable — so appending properties with keys the schema does
not name never changes the result, and a conforming object value stays
conforming under such extension. -/
theorem object_schema_excess_keys (sprops : List (String × Schema))
    (p : String) :
    (∀ (v1 v2 : JSValue), isObjectLike v1 = true → isObjectLike v2 = true →
       (∀ k ∈ sprops.map Prod.fst, getProp v1 k = getProp v2 k) →
       diff v1 (Schema.obj sprops) p = diff v2 (Schema.obj sprops) p)
    ∧ (∀ (vprops extra : List (String × JSValue)),
         (∀ k ∈ extra.map Prod.fst, k ∉ sprops.map Prod.fst) →
         diff (JSValue.obj (vprops ++ extra)) (Schema.obj sprops) p
           = diff (JSValue.obj vprops) (Schema.obj sprops) p)
    ∧ (∀ (vprops extra : List (String × JSValue)),
         (∀ k ∈ extra.map Prod.fst, k ∉ sprops.map Prod.fst) →
         is (JSValue.obj vprops) (Schema.obj sprops) = true →
         is (JSValue.obj (vprops ++ extra)) (Schema.obj sprops) = true) := by
  have key : ∀ (vprops extra : List (String × JSValue)) (p' : String),
      (∀ k ∈ extra.map Prod.fst, k ∉ sprops.map Prod.fst) →
      diff (JSValue.obj (vprops ++ extra)) (Schema.obj sprops) p'
        = diff (JSValue.obj vprops) (Schema.obj sprops) p' := by
    intro vprops extra p' hdisj
    rw [diff_obj sprops p' (by simp [isObjectLike]),
      diff_obj sprops p' (by simp [isObjectLike])]
    apply objAux_congr
    intro k hk
    exact getProp_obj_append vprops extra k (fun hmem => hdisj k hmem hk)
  refine ⟨?_, fun vprops extra h => key vprops extra p h, ?_⟩
  · intro v1 v2 h1 h2 hagree
    rw [diff_obj sprops p h1, diff_obj sprops p h2]
    exact objAux_congr sprops v1 v2 p hagree
  · intro vprops extra hdisj hconf
    have := key vprops extra "value" hdisj
    simp [is, this] at hconf ⊢
    exact hconf

/-- C8 witness: `{a: 1, b: 2}` conforms to `{a: Number}` although `b`
is not named in the schema. -/
theorem object_schema_excess_keys_witness :
    (∀ k ∈ ([("b", JSValue.num 2)].map Prod.fst),
      k ∉ (([("a", Schema.numberMarker)] : List (String × Schema)).map
            Prod.fst))
    ∧ is (JSValue.obj [("a", JSValue.num 1)])
        (Schema.obj [("a", Schema.numberMarker)]) = true
    ∧ is (JSValue.obj ([("a", JSValue.num 1)] ++ [("b", JSValue.num 2)]))
        (Schema.obj [("a", Schema.numberMarker)]) = true := by
  have h1 : ∀ k ∈ ([("b", JSValue.num 2)].map Prod.fst),
      k ∉ (([("a", Schema.numberMarker)] : List (String × Schema)).map
            Prod.fst) := by
    decide
  have h2 : is (JSValue.obj [("a", JSValue.num 1)])
      (Schema.obj [("a", Schema.numberMarker)]) = true := by
    simp [is, diff, objAux, isObjectLike, getProp, isNum]
  exact ⟨h1, h2,
    (object_schema_excess_keys [("a", Schema.numberMarker)] "value").2.2
      _ _ h1 h2⟩

/-- C9: the union guard accepts a value exactly when some listed
schema matches it, and permuting the listed schemas never changes the
boolean outcome. -/
theorem union_any_order :
    (∀ (schemas : List Schema) (v : JSValue),
       (union schemas).pred v = schemas.any (fun s => is v s))
    ∧ (∀ (l1 l2 : List Schema), l1.Perm l2 →
       ∀ (v : JSValue), (union l1).pred v = (union l2).pred v) := by
  refine ⟨fun schemas v => rfl, ?_⟩
  intro l1 l2 hperm v
  show l1.any (fun s => is v s) = l2.any (fun s => is v s)
  rw [List.any_eq, List.any_eq]
  exact decide_eq_decide.mpr
    ⟨fun ⟨x, hx, hp⟩ => ⟨x, hperm.mem_iff.mp hx, hp⟩,
     fun ⟨x, hx, hp⟩ => ⟨x, hperm.mem_iff.mpr hx, hp⟩⟩

/-- C9 witness: `union [Number, String]` and `union [String, Number]`
agree on the value `1`. -/
theorem union_any_order_witness :
    (List.Perm [Schema.numberMarker, Schema.stringMarker]
      [Schema.stringMarker, Schema.numberMarker])
    ∧ (union [Schema.numberMarker, Schema.stringMarker]).pred (JSValue.num 1)
      = (union [Schema.stringMarker, Schema.numberMarker]).pred
          (JSValue.num 1) :=
  ⟨List.Perm.swap _ _ _,
   union_any_order.2 _ _ (List.Perm.swap _ _ _) _⟩

/-- C10: on a tuple-mode schema and a strictly longer array value, the
positional pass covers the extra indices against the out-of-range
schema entry — the literal `undefined` — so extra non-`undefined`
elements yield index-extended mismatches that are returned instead of
the length mismatch, while the extra pass is empty exactly when all
extra elements are `undefined`, in which case (positional pass clean)
only the single length mismatch at the unmodified path remains. -/
theorem tuple_overlong_value (ss : List Schema) (vs : List JSValue)
    (p : String) (hs : 1 < ss.length) (hlen : ss.length < vs.length) :
    diff (JSValue.arr vs) (Schema.arr ss) p =
        (if tupleChecks vs ss 0 p = [] then [p] else tupleChecks vs ss 0 p)
    ∧ tupleChecks vs ss 0 p =
        tupleChecks (vs.take ss.length) ss 0 p
          ++ tupleChecks (vs.drop ss.length) ss ss.length p
    ∧ (tupleChecks (vs.drop ss.length) ss ss.length p = []
        ↔ ∀ v ∈ vs.drop ss.length, v = JSValue.undefined)
    ∧ ∀ i, ss.length ≤ i →
        ss.getD i (Schema.lit Prim.undefined) = Schema.lit Prim.undefined := by
  refine ⟨?_, ?_, tupleChecks_out _ ss p ss.length (le_refl _), ?_⟩
  · rw [tuple_content_before_length ss vs p hs]
    have : ¬vs.length = ss.length := by omega
    by_cases hc : tupleChecks vs ss 0 p = [] <;> simp [hc, this]
  · conv_lhs => rw [← List.take_append_drop ss.length vs]
    rw [tupleChecks_append]
    have : (vs.take ss.length).length = ss.length := by
      simp [List.length_take]
      omega
    rw [this]
    simp
  · intro i hi
    simp [List.getD_eq_getElem?_getD, List.getElem?_eq_none hi]

/-- C10 witness: `["A", 2, "X"]` against `[String, Number]` — the
extra element `"X"` is checked against the literal `undefined` and
reported at its index-extended path instead of the length mismatch. -/
theorem tuple_overlong_value_witness :
    1 < ([Schema.stringMarker, Schema.numberMarker] : List Schema).length
    ∧ ([Schema.stringMarker, Schema.numberMarker] : List Schema).length
        < ([JSValue.str "A", JSValue.num 2, JSValue.str "X"] :
            List JSValue).length
    ∧ diff (JSValue.arr [JSValue.str "A", JSValue.num 2, JSValue.str "X"])
        (Schema.arr [Schema.stringMarker, Schema.numberMarker]) "value" =
      (if tupleChecks [JSValue.str "A", JSValue.num 2, JSValue.str "X"]
            [Schema.stringMarker, Schema.numberMarker] 0 "value" = []
       then ["value"]
       else tupleChecks [JSValue.str "A", JSValue.num 2, JSValue.str "X"]
            [Schema.stringMarker, Schema.numberMarker] 0 "value") :=
  ⟨by decide, by decide,
   (tuple_overlong_value [Schema.stringMarker, Schema.numberMarker]
      [JSValue.str "A", JSValue.num 2, JSValue.str "X"] "value"
      (by decide) (by decide)).1⟩

end TypeAssurance
